import Mathlib

/-!
Shallow embedding of the unblob chunk model and of the pieces of the
recursive extraction pipeline that the verified properties are about.

Conventions of the embedding:
* Python integers are modelled as Int, Python lists as List.
* Code that can raise an exception is modelled as an Except-valued function;
  the attrs post-init validation of Chunk is run by explicit make functions,
  one per constructor call site kind.
* Python sorted(l, key=k) is a stable ascending sort; it is modelled by
  sortK, a stable insertion sort (later elements are placed after earlier
  elements with an equal key).  sorted(l, key=size, reverse=True) keeps
  ties in input order as well, and is modelled as sortK on the negated size.
-/

/-- Exception raised by the offset validation in Chunk attrs post-init
(src/unblob/models.py lines 57-63).  The payload records which check fired
and the offending offsets, mirroring the message of the Python exception. -/
inductive InvalidInputFormat where
  | negativeOffset (start_offset end_offset : Int)
  | startNotBeforeEnd (start_offset end_offset : Int)
deriving DecidableEq, Repr

/-- Chunk of a Blob (src/unblob/models.py lines 40-83): the half-open byte
range from start_offset to end_offset. -/
structure Chunk where
  start_offset : Int
  end_offset : Int
deriving DecidableEq, Repr

/-- Offset validation of Chunk attrs post-init (models.py lines 57-63):
a negative offset raises first, then start_offset >= end_offset raises. -/
def Chunk.validate (start_offset end_offset : Int) : Except InvalidInputFormat Unit :=
  if start_offset < 0 ∨ end_offset < 0 then
    .error (.negativeOffset start_offset end_offset)
  else if start_offset ≥ end_offset then
    .error (.startNotBeforeEnd start_offset end_offset)
  else
    .ok ()

/-- Constructing a Chunk runs the attrs post-init validation. -/
def Chunk.make (start_offset end_offset : Int) : Except InvalidInputFormat Chunk := do
  Chunk.validate start_offset end_offset
  .ok ⟨start_offset, end_offset⟩

/-- Chunk.size property (models.py lines 65-67). -/
def Chunk.size (c : Chunk) : Int := c.end_offset - c.start_offset

/-- Chunk.contains (models.py lines 73-77): strict < on start_offset,
>= on end_offset. -/
def Chunk.contains (self other : Chunk) : Bool :=
  decide (self.start_offset < other.start_offset) &&
    decide (self.end_offset ≥ other.end_offset)

/-- Chunk.contains_offset (models.py lines 79-80). -/
def Chunk.contains_offset (c : Chunk) (offset : Int) : Bool :=
  decide (c.start_offset ≤ offset) && decide (offset < c.end_offset)

/-- ValidChunk (models.py lines 86-102): a Chunk with an is_encrypted flag.
The handler attribute is excluded from equality in the source (eq=False) and
plays no role in the chunk arithmetic modelled here, so it is left out of
the structure; the extraction behaviour of the handler is modelled
separately where needed. -/
structure ValidChunk extends Chunk where
  is_encrypted : Bool := false
deriving DecidableEq, Repr

/-- Constructing a ValidChunk runs the inherited Chunk validation; the
is_encrypted argument defaults to false in the source. -/
def ValidChunk.make (start_offset end_offset : Int) (is_encrypted : Bool) :
    Except InvalidInputFormat ValidChunk := do
  Chunk.validate start_offset end_offset
  .ok ⟨⟨start_offset, end_offset⟩, is_encrypted⟩

def ValidChunk.size (c : ValidChunk) : Int := c.toChunk.size

def ValidChunk.contains (self other : ValidChunk) : Bool :=
  self.toChunk.contains other.toChunk

/-- UnknownChunk (models.py lines 105-114): a Chunk produced only by gap
computation. -/
structure UnknownChunk extends Chunk
deriving DecidableEq, Repr

/-- Constructing an UnknownChunk runs the inherited Chunk validation. -/
def UnknownChunk.make (start_offset end_offset : Int) :
    Except InvalidInputFormat UnknownChunk := do
  Chunk.validate start_offset end_offset
  .ok ⟨⟨start_offset, end_offset⟩⟩

/-- Stable insert used to model Python sorted: the new element is placed
before the first element with a strictly larger key, hence after all
already-present elements with an equal key. -/
def insertK (k : α → Int) (a : α) : List α → List α
  | [] => [a]
  | b :: bs => if k a < k b then a :: b :: bs else b :: insertK k a bs

/-- Model of Python sorted(l, key=k): stable ascending insertion sort.
Elements are inserted left to right, so later input elements end up after
earlier input elements with an equal key, exactly as a stable sort does. -/
def sortK (k : α → Int) (l : List α) : List α :=
  l.foldl (fun acc x => insertK k x acc) []

/-- Loop of remove_inner_chunks (processing.py lines 230-232): append a
chunk to the accepted outer list only when no accepted outer chunk
contains it. -/
def removeInnerLoop (outer_chunks : List ValidChunk) :
    List ValidChunk → List ValidChunk
  | [] => outer_chunks
  | chunk :: rest =>
    if outer_chunks.any (fun outer => outer.contains chunk) then
      removeInnerLoop outer_chunks rest
    else
      removeInnerLoop (outer_chunks ++ [chunk]) rest

/-- remove_inner_chunks (processing.py lines 223-242): return the empty list
for empty input, otherwise sort by size descending (stable; modelled as an
ascending stable sort on the negated size), seed the outer list with the
largest chunk and run the acceptance loop over the remaining ones. -/
def remove_inner_chunks (chunks : List ValidChunk) : List ValidChunk :=
  match sortK (fun c => -c.size) chunks with
  | [] => []
  | c0 :: rest => removeInnerLoop [c0] rest

/-- Gap computation of the pairwise loop in calculate_unknown_chunks
(processing.py lines 261-268): for each consecutive pair of the
offset-sorted list, when the difference between the next start and the
current end is non-zero an UnknownChunk is constructed (whose validation
can raise, which aborts the whole computation like the Python exception). -/
def pairGaps : List ValidChunk → Except InvalidInputFormat (List UnknownChunk)
  | [] => .ok []
  | [_] => .ok []
  | chunk :: next_chunk :: rest =>
    if next_chunk.start_offset - chunk.end_offset ≠ 0 then do
      let u ← UnknownChunk.make chunk.end_offset next_chunk.start_offset
      let tail ← pairGaps (next_chunk :: rest)
      .ok (u :: tail)
    else
      pairGaps (next_chunk :: rest)

/-- Head gap of calculate_unknown_chunks (processing.py lines 256-259): when
the first sorted chunk does not start at offset 0, an UnknownChunk for the
leading region is constructed. -/
def headGap (first : ValidChunk) : Except InvalidInputFormat (List UnknownChunk) :=
  if first.start_offset ≠ 0 then do
    let u ← UnknownChunk.make 0 first.start_offset
    pure [u]
  else
    pure []

/-- Tail gap of calculate_unknown_chunks (processing.py lines 270-276): when
the last sorted chunk ends before file_size, an UnknownChunk for the
trailing region is constructed. -/
def tailGap (lastChunk : ValidChunk) (file_size : Int) :
    Except InvalidInputFormat (List UnknownChunk) :=
  if lastChunk.end_offset < file_size then do
    let u ← UnknownChunk.make lastChunk.end_offset file_size
    pure [u]
  else
    pure []

/-- Body of calculate_unknown_chunks on the offset-sorted list: head gap,
then the pairwise gaps, then the tail gap, in the order the source appends
them (the empty case is unreachable from the caller). -/
def calcUnknownSorted (sorted_by_offset : List ValidChunk) (file_size : Int) :
    Except InvalidInputFormat (List UnknownChunk) :=
  match sorted_by_offset with
  | [] => .ok []
  | first :: rest => do
    let head ← headGap first
    let mids ← pairGaps (first :: rest)
    let tail ← tailGap ((first :: rest).getLast (List.cons_ne_nil first rest)) file_size
    .ok (head ++ mids ++ tail)

/-- calculate_unknown_chunks (processing.py lines 245-278): empty input or a
zero file size yield no chunks; otherwise the gaps are computed from the
list sorted by start_offset. -/
def calculate_unknown_chunks (chunks : List ValidChunk) (file_size : Int) :
    Except InvalidInputFormat (List UnknownChunk) :=
  if chunks.isEmpty || file_size == 0 then .ok []
  else calcUnknownSorted (sortK (fun c => c.start_offset) chunks) file_size

/-- Decidable equality of Except values, used to evaluate the embedded
exception-raising computations in witnesses and counterexamples. -/
instance {ε α : Type} [DecidableEq ε] [DecidableEq α] : DecidableEq (Except ε α) := fun x y =>
  match x, y with
  | .ok a, .ok b =>
    if h : a = b then .isTrue (by rw [h]) else .isFalse (fun hc => h (Except.ok.inj hc))
  | .error a, .error b =>
    if h : a = b then .isTrue (by rw [h]) else .isFalse (fun hc => h (Except.error.inj hc))
  | .ok _, .error _ => .isFalse (fun hc => Except.noConfusion hc)
  | .error _, .ok _ => .isFalse (fun hc => Except.noConfusion hc)

/-! Machinery for the order-invariance of remove_inner_chunks: a fuelled,
order-insensitive characterisation of which chunks survive.  A chunk is
outer when no strictly larger surviving chunk contains it; since contains
forces a strictly larger size, the recursion climbs sizes and is bounded by
the maximal chunk size. -/

/-- Maximum of the clamped chunk sizes of a list. -/
def chunkMaxSize (l : List ValidChunk) : Nat :=
  l.foldr (fun c m => max c.size.toNat m) 0

/-- Fuelled outer predicate: c is outer for the collection l when no member
of l that strictly contains c (hence is strictly larger) is itself outer. -/
def outerFuel : Nat → List ValidChunk → ValidChunk → Bool
  | 0, _, _ => true
  | fuel + 1, l, c =>
    !(l.any fun d =>
        d.contains c && decide (c.size.toNat < d.size.toNat) && outerFuel fuel l d)

/-- Outer predicate with enough fuel to be fuel-independent. -/
def isOuter (l : List ValidChunk) (c : ValidChunk) : Bool :=
  outerFuel (chunkMaxSize l + 1 - c.size.toNat) l c

/-! Machinery for the tiling property (C1): a chained description of the
gaps emitted by calculate_unknown_chunks on a sorted, pairwise separated
chunk list, and the proof that chunks plus gaps partition the file range. -/

/-- The exact-cover property claimed for outer plus unknown chunks: the
half-open ranges are pairwise disjoint and their union is the interval
from 0 to S. -/
def tiles (cs : List Chunk) (S : Int) : Prop :=
  (∀ x : Int, (0 ≤ x ∧ x < S) ↔ ∃ c ∈ cs, c.contains_offset x = true) ∧
  List.Pairwise
    (fun a b => ∀ x : Int,
      ¬(a.contains_offset x = true ∧ b.contains_offset x = true)) cs

/-- Chained hypotheses for a start-sorted chunk list: each chunk starts at
or after the running position, is non-empty, and the next link starts from
its end; the final position is at most S. -/
def chainOK (p S : Int) : List Chunk → Prop
  | [] => p ≤ S
  | c :: rest =>
    p ≤ c.start_offset ∧ c.start_offset < c.end_offset ∧ chainOK c.end_offset S rest

/-- Recursive description of the gaps between position p and S around a
start-sorted chunk list. -/
def chainGaps (p S : Int) : List Chunk → List Chunk
  | [] => if p < S then [⟨p, S⟩] else []
  | c :: rest =>
    (if p < c.start_offset then [⟨p, c.start_offset⟩] else []) ++
      chainGaps c.end_offset S rest

/-- Gaps and chunks interleaved in ascending order. -/
def chainAll (p S : Int) : List Chunk → List Chunk
  | [] => if p < S then [⟨p, S⟩] else []
  | c :: rest =>
    (if p < c.start_offset then [⟨p, c.start_offset⟩] else []) ++
      c :: chainAll c.end_offset S rest

/-! Report and task model for the processing claims.  report.py is not under
src, so the report shapes are modelled from the spec. -/

/-- Python exception value, abstracted to its message. -/
structure PyException where
  message : String
deriving DecidableEq, Repr

/-- Modelled from the spec: report.py is absent from src; spec section 8
gives each report a severity among ERROR, WARNING and INFO. -/
inductive Severity where
  | ERROR
  | WARNING
  | INFO
deriving DecidableEq, Repr

/-- Modelled from the spec: report.py is absent from src.  UnknownError
(spec section 7) wraps an unexpected exception and is an error report;
every other report is abstracted to its severity. -/
inductive Report where
  | unknownError (exc : PyException)
  | report (severity : Severity)
deriving DecidableEq, Repr

def Report.severity : Report → Severity
  | .unknownError _ => .ERROR
  | .report s => s

/-- Modelled from the spec: the errors view of a Reports collection used by
get_exit_code_from_reports keeps the error-kind reports, which are the ones
carrying an ERROR or WARNING severity (spec section 7); INFO reports are
not error reports. -/
def Reports.errors (reports : List Report) : List Report :=
  reports.filter (fun r => r.severity ≠ Severity.INFO)

/-- get_exit_code_from_reports (cli.py lines 196-207): collect the
severities of the error reports and walk the severity_to_exit_code pairs
(ERROR, 1) then (WARNING, 0), returning 0 when neither is present.  The
source collects severities into a set; only membership is tested, so a
list is an equivalent model. -/
def get_exit_code_from_reports (reports : List Report) : Nat :=
  if Severity.ERROR ∈ (Reports.errors reports).map (fun r => r.severity) then 1
  else if Severity.WARNING ∈ (Reports.errors reports).map (fun r => r.severity) then 0
  else 0

/-- Task (models.py lines 21-25); named UTask because Task is taken by the Lean core. -/
structure UTask where
  root : String
  path : String
  depth : Nat
deriving DecidableEq, Repr

/-- TaskResult (models.py lines 117-139): the task with its reports and the
newly produced tasks, mutated only through add_report and add_new_task. -/
structure TaskResult where
  task : UTask
  reports : List Report
  new_tasks : List UTask
deriving DecidableEq, Repr

/-- TaskResult.add_report (models.py lines 123-124). -/
def TaskResult.add_report (r : TaskResult) (rep : Report) : TaskResult :=
  { r with reports := r.reports ++ [rep] }

/-- TaskResult.add_new_task (models.py lines 126-127). -/
def TaskResult.add_new_task (r : TaskResult) (t : UTask) : TaskResult :=
  { r with new_tasks := r.new_tasks ++ [t] }

/-- ExtractionConfig (processing.py lines 38-46).  The handlers collection
plays no role in the modelled claims; process_num defaults to the cpu count
in the source, which is environment-dependent and left unconstrained. -/
structure ExtractionConfig where
  extract_root : String
  entropy_depth : Nat
  entropy_plot : Bool
  max_depth : Nat
  process_num : Nat
  keep_extracted_chunks : Bool
deriving DecidableEq, Repr

/-- File kind as far as _process_task inspects the lstat mode: S_ISDIR
(with the iterdir listing used for children), S_ISLNK, or anything else,
which is treated as a regular file subject to the size check. -/
inductive StatKind where
  | directory (children : List String)
  | symlink
  | file
deriving DecidableEq, Repr

/-- Relevant part of an lstat result: mode kind and st_size. -/
structure StatResult where
  kind : StatKind
  size : Nat
deriving DecidableEq, Repr

/-- Processor._process_task (processing.py lines 96-132).  External effects
are parameters: vp is the valid_path check, stat the lstat call (which can
raise), and fileStep the whole _FileTask(...).process() call on a regular
file, abstracted as an arbitrary mutation of the result that can also leave
a raised exception (chunk search, carving and extraction happen inside it).
PerfCounter only feeds the out-of-scope profiling and is modelled as a
no-op.  The returned Bool records whether fileStep was invoked, and the
Option PyException the exception escaping the body, if any. -/
def processTaskInner (config : ExtractionConfig) (task : UTask) (vp : Bool)
    (stat : Except PyException StatResult)
    (fileStep : TaskResult → TaskResult × Option PyException)
    (result : TaskResult) : TaskResult × Option PyException × Bool :=
  if config.max_depth ≤ task.depth then (result, none, false)
  else if vp = false then (result, none, false)
  else
    match stat with
    | .error e => (result, some e, false)
    | .ok st =>
      match st.kind with
      | .directory children =>
        (children.foldl
          (fun acc p => acc.add_new_task ⟨task.root, p, task.depth⟩) result,
          none, false)
      | .symlink => (result, none, false)
      | .file =>
        if st.size = 0 then (result, none, false)
        else
          let step := fileStep result
          (step.1, step.2, true)

/-- Processor.process_task (processing.py lines 82-94): build the TaskResult
for the task, run _process_task, and on any escaping exception add a single
UnknownError report to the result, which is returned in every case. -/
def process_task (config : ExtractionConfig) (task : UTask) (vp : Bool)
    (stat : Except PyException StatResult)
    (fileStep : TaskResult → TaskResult × Option PyException) : TaskResult :=
  match processTaskInner config task vp stat fileStep ⟨task, [], []⟩ with
  | (r, none, _) => r
  | (r, some e, _) => r.add_report (.unknownError e)

/-- Abstract behaviour of an external extractor invocation on this input
(the Extractor implementations are out of scope per spec section 1): it can
succeed, fail with an ExtractError carrying reports, or raise any other
exception. -/
inductive ExtractBehavior where
  | ok
  | extractError (reports : List Report)
  | unexpected (exc : PyException)
deriving DecidableEq, Repr

/-- Handler as far as extraction is concerned (models.py lines 163-195):
an optional extractor together with its behaviour. -/
structure HandlerModel where
  extractor : Option ExtractBehavior
deriving DecidableEq, Repr

/-- Exception escaping ValidChunk.extract. -/
inductive ExtractExc where
  | extractError (reports : List Report)
  | unexpected (exc : PyException)
deriving DecidableEq, Repr

/-- ValidChunk.extract (models.py lines 93-102) combined with
Handler.extract (models.py lines 187-195): an encrypted chunk only logs
a warning (logger.warning) and raises ExtractError() with an empty reports
tuple; a handler without extractor logs and raises ExtractError() likewise;
otherwise outdir is created (mkdir, exist_ok=False) and the extractor runs.
Returns (extractor invoked, outdir created, escaping exception). -/
def ValidChunk.extractModel (chunk : ValidChunk) (handler : HandlerModel) :
    Bool × Bool × Option ExtractExc :=
  if chunk.is_encrypted then
    (false, false, some (.extractError []))
  else
    match handler.extractor with
    | none => (false, false, some (.extractError []))
    | some behavior =>
      match behavior with
      | .ok => (true, true, none)
      | .extractError reports => (true, true, some (.extractError reports))
      | .unexpected exc => (true, true, some (.unexpected exc))

/-- _FileTask._extract_chunk (processing.py lines 187-220) for one chunk.
carve_valid_chunk and get_extract_paths live in extractor.py, which is not
under src: modelled from the spec (section 4.3) as carving the chunk bytes
to a file and computing the outdir path, with no effect on reports or
tasks.  chunk.extract runs next; an ExtractError contributes its attached
reports, any other exception an UnknownError report.
fix_extracted_directory is also not under src: modelled from the spec
(section 4.4 step 7) as walking outdir when it exists, contributing the
given repair reports, and never creating outdir.  Finally a child task at
depth + 1 rooted at extract_root is enqueued when outdir exists.  Returns
(updated result, extractor invoked, outdir created). -/
def extract_chunk (config : ExtractionConfig) (task : UTask) (chunk : ValidChunk)
    (handler : HandlerModel) (outdirName : String) (fixReports : List Report)
    (result : TaskResult) : TaskResult × Bool × Bool :=
  let step := chunk.extractModel handler
  let invoked := step.1
  let outdirExists := step.2.1
  let caught : List Report :=
    match step.2.2 with
    | none => []
    | some (.extractError reports) => reports
    | some (.unexpected exc) => [Report.unknownError exc]
  let fixed := if outdirExists then fixReports else []
  let r1 := { result with reports := result.reports ++ caught ++ fixed }
  let r2 :=
    if outdirExists then
      r1.add_new_task ⟨config.extract_root, outdirName, task.depth + 1⟩
    else r1
  (r2, invoked, outdirExists)

/-! NetgearCHKHandler (src/unblob/handlers/filesystem/netgear.py). -/

/-- Big-endian 32-bit read at byte offset i, for the uint32 fields of the
chk_header struct parsed with Endian.BIG. -/
def be32 (bytes : List Nat) (i : Nat) : Nat :=
  bytes.getD i 0 * 16777216 + bytes.getD (i + 1) 0 * 65536 +
    bytes.getD (i + 2) 0 * 256 + bytes.getD (i + 3) 0

/-- chk_header (netgear.py lines 11-24): magic, header_len, 8 reserved
bytes, kernel and rootfs checksums, kernel and rootfs lengths, image and
header checksums; 40 bytes in total. -/
structure ChkHeader where
  magic : Nat
  header_len : Nat
  kernel_chksum : Nat
  rootfs_chksum : Nat
  kernel_len : Nat
  rootfs_len : Nat
  image_chksum : Nat
  header_chksum : Nat
deriving DecidableEq, Repr

/-- StructParser.parse of chk_header_t from the bytes at the match offset
(file_utils.py is not under src: modelled from the spec and the struct
declaration as reading the declared fields big-endian at their offsets,
failing when fewer than the 40 struct bytes are available). -/
def parse_chk_header (bytes : List Nat) : Option ChkHeader :=
  if bytes.length < 40 then none
  else some
    { magic := be32 bytes 0
      header_len := be32 bytes 4
      kernel_chksum := be32 bytes 16
      rootfs_chksum := be32 bytes 20
      kernel_len := be32 bytes 24
      rootfs_len := be32 bytes 28
      image_chksum := be32 bytes 32
      header_chksum := be32 bytes 36 }

/-- Error outcomes of calculate_chunk: a failed header parse, or the
InvalidInputFormat raised by the ValidChunk constructor. -/
inductive CalcChunkError where
  | parseFailed
  | invalid (e : InvalidInputFormat)
deriving DecidableEq, Repr

/-- NetgearCHKHandler.calculate_chunk (netgear.py lines 37-52): parse the
header, optionally read the board id (which does not influence the result),
and construct a ValidChunk from start_offset to start_offset plus
header_len + kernel_len + rootfs_len.  The Python signature allows None but
the body never returns it: the outcomes are a ValidChunk or a raised
exception, so the model returns Except with no None case. -/
def netgear_calculate_chunk (bytes : List Nat) (start_offset : Int) :
    Except CalcChunkError ValidChunk :=
  match parse_chk_header bytes with
  | none => .error .parseFailed
  | some header =>
    match ValidChunk.make start_offset
        (start_offset +
          ((header.header_len + header.kernel_len + header.rootfs_len : Nat) : Int))
        false with
    | .error e => .error (.invalid e)
    | .ok c => .ok c

/-! Basic facts about the sort model. -/

theorem insertK_perm (k : α → Int) (a : α) (l : List α) :
    (insertK k a l).Perm (a :: l) := by
  induction l with
  | nil => simp [insertK]
  | cons b bs ih =>
    simp only [insertK]
    split
    · exact List.Perm.refl _
    · exact (List.Perm.cons b ih).trans (List.Perm.swap a b bs)

theorem sortK_fold_perm (k : α → Int) :
    ∀ (l acc : List α), (l.foldl (fun acc x => insertK k x acc) acc).Perm (acc ++ l) := by
  intro l
  induction l with
  | nil => intro acc; simp
  | cons x xs ih =>
    intro acc
    simp only [List.foldl_cons]
    refine (ih (insertK k x acc)).trans ?_
    refine (List.Perm.append_right xs (insertK_perm k x acc)).trans ?_
    exact (List.perm_middle).symm

theorem sortK_perm (k : α → Int) (l : List α) : (sortK k l).Perm l := by
  simpa using sortK_fold_perm k l []

theorem mem_insertK {k : α → Int} {a x : α} {l : List α} :
    x ∈ insertK k a l ↔ x = a ∨ x ∈ l := by
  rw [(insertK_perm k a l).mem_iff, List.mem_cons]

/-- Stability with a secondary key: if the input is weakly descending on a
secondary weight w, the sorted output is pairwise ordered by strictly
ascending primary key, with equal-key pairs keeping the descending weight. -/
theorem insertK_pairwise_stable {k w : α → Int} {x : α} {acc : List α}
    (hacc : List.Pairwise (fun a b => k a < k b ∨ (k a = k b ∧ w b ≤ w a)) acc)
    (hdom : ∀ b ∈ acc, w x ≤ w b) :
    List.Pairwise (fun a b => k a < k b ∨ (k a = k b ∧ w b ≤ w a)) (insertK k x acc) := by
  induction acc with
  | nil => simp [insertK]
  | cons b bs ih =>
    rw [List.pairwise_cons] at hacc
    simp only [insertK]
    split
    · rename_i hlt
      refine List.pairwise_cons.mpr ⟨?_, List.pairwise_cons.mpr hacc⟩
      intro y hy
      rcases List.mem_cons.mp hy with rfl | hy
      · exact Or.inl hlt
      · rcases hacc.1 y hy with h | h
        · exact Or.inl (lt_trans hlt h)
        · exact Or.inl (lt_of_lt_of_le hlt (le_of_eq h.1))
    · rename_i hnlt
      refine List.pairwise_cons.mpr ⟨?_, ih hacc.2 ?_⟩
      · intro y hy
        rcases mem_insertK.mp hy with rfl | hy
        · rcases lt_or_eq_of_le (not_lt.mp hnlt) with h | h
          · exact Or.inl h
          · exact Or.inr ⟨h, hdom b (List.mem_cons_self b bs)⟩
        · exact hacc.1 y hy
      · intro y hy
        exact hdom y (List.mem_cons_of_mem b hy)

theorem sortK_fold_pairwise_stable {k w : α → Int} :
    ∀ (rest acc : List α),
      List.Pairwise (fun a b => k a < k b ∨ (k a = k b ∧ w b ≤ w a)) acc →
      (∀ a ∈ acc, ∀ r ∈ rest, w r ≤ w a) →
      List.Pairwise (fun a b => w b ≤ w a) rest →
      List.Pairwise (fun a b => k a < k b ∨ (k a = k b ∧ w b ≤ w a))
        (rest.foldl (fun acc x => insertK k x acc) acc) := by
  intro rest
  induction rest with
  | nil => intro acc hacc _ _; simpa using hacc
  | cons x xs ih =>
    intro acc hacc hdom hrest
    rw [List.pairwise_cons] at hrest
    simp only [List.foldl_cons]
    refine ih (insertK k x acc) ?_ ?_ hrest.2
    · exact insertK_pairwise_stable hacc
        (fun b hb => hdom b hb x (List.mem_cons_self x xs))
    · intro a ha r hr
      rcases mem_insertK.mp ha with rfl | ha
      · exact hrest.1 r hr
      · exact hdom a ha r (List.mem_cons_of_mem x hr)

theorem sortK_pairwise_stable {k w : α → Int} {l : List α}
    (hl : List.Pairwise (fun a b => w b ≤ w a) l) :
    List.Pairwise (fun a b => k a < k b ∨ (k a = k b ∧ w b ≤ w a)) (sortK k l) :=
  sortK_fold_pairwise_stable l [] (List.Pairwise.nil) (by simp) hl

/-- Plain sortedness of the sort model. -/
theorem sortK_sorted (k : α → Int) (l : List α) :
    List.Pairwise (fun a b => k a ≤ k b) (sortK k l) := by
  have h := sortK_pairwise_stable (k := k) (w := fun _ => (0 : Int)) (l := l)
    (List.pairwise_of_forall (by intro a b; exact le_refl 0))
  exact h.imp (by
    intro a b hab
    rcases hab with h1 | h1
    · exact le_of_lt h1
    · exact le_of_eq h1.1)

/-! Facts about Chunk.contains and sizes. -/

theorem contains_size_lt {a b : Chunk} (h : a.contains b = true) : b.size < a.size := by
  simp only [Chunk.contains, Bool.and_eq_true, decide_eq_true_eq] at h
  simp only [Chunk.size]
  omega

theorem vcontains_size_lt {a b : ValidChunk} (h : a.contains b = true) :
    b.size < a.size :=
  contains_size_lt (a := a.toChunk) (b := b.toChunk) h

/-! The claims about remove_inner_chunks alone. -/

theorem removeInnerLoop_sublist :
    ∀ (rest acc : List ValidChunk), (removeInnerLoop acc rest).Sublist (acc ++ rest) := by
  intro rest
  induction rest with
  | nil => intro acc; simp [removeInnerLoop]
  | cons c cs ih =>
    intro acc
    simp only [removeInnerLoop]
    split
    · refine (ih acc).trans ?_
      refine List.Sublist.append_left ?_ acc
      exact List.sublist_cons_self c cs
    · refine (ih (acc ++ [c])).trans ?_
      rw [List.append_assoc]
      exact List.Sublist.refl _

theorem removeInnerLoop_pairwise :
    ∀ (rest acc : List ValidChunk),
      List.Pairwise (fun a b => a.contains b = false ∧ b.contains a = false) acc →
      (∀ a ∈ acc, ∀ r ∈ rest, r.size ≤ a.size) →
      List.Pairwise (fun a b => b.size ≤ a.size) rest →
      List.Pairwise (fun a b => a.contains b = false ∧ b.contains a = false)
        (removeInnerLoop acc rest) := by
  intro rest
  induction rest with
  | nil => intro acc hacc _ _; simpa [removeInnerLoop] using hacc
  | cons c cs ih =>
    intro acc hacc hdom hrest
    rw [List.pairwise_cons] at hrest
    simp only [removeInnerLoop]
    split
    · refine ih acc hacc ?_ hrest.2
      intro a ha r hr
      exact hdom a ha r (List.mem_cons_of_mem c hr)
    · rename_i hany
      have hnone : ∀ a ∈ acc, a.contains c = false := by
        intro a ha
        by_contra hcon
        exact hany (List.any_eq_true.mpr ⟨a, ha, Bool.of_not_eq_false hcon⟩)
      refine ih (acc ++ [c]) ?_ ?_ hrest.2
      · rw [List.pairwise_append]
        refine ⟨hacc, List.pairwise_singleton _ c, ?_⟩
        intro a ha b hb
        rw [List.mem_singleton] at hb
        subst hb
        refine ⟨hnone a ha, ?_⟩
        by_contra hcon
        have h1 : a.size < b.size := vcontains_size_lt (Bool.of_not_eq_false hcon)
        have h2 : b.size ≤ a.size := hdom a ha b (List.mem_cons_self b cs)
        omega
      · intro a ha r hr
        rcases List.mem_append.mp ha with ha | ha
        · exact hdom a ha r (List.mem_cons_of_mem c hr)
        · rw [List.mem_singleton] at ha
          subst ha
          exact hrest.1 r hr

/-- C2: the list returned by remove_inner_chunks is pairwise non-containing:
for any two distinct positions a (earlier) and b (later) of the result,
neither a.contains b nor b.contains a holds. -/
theorem remove_inner_chunks_pairwise_noncontaining (chunks : List ValidChunk) :
    List.Pairwise (fun a b => a.contains b = false ∧ b.contains a = false)
      (remove_inner_chunks chunks) := by
  unfold remove_inner_chunks
  split
  · exact List.Pairwise.nil
  · rename_i c0 rest hsort
    have hsorted : List.Pairwise (fun a b : ValidChunk => b.size ≤ a.size) (c0 :: rest) := by
      have h := sortK_sorted (fun c : ValidChunk => -c.size) chunks
      rw [hsort] at h
      exact h.imp (by intro a b hab; omega)
    rw [List.pairwise_cons] at hsorted
    refine removeInnerLoop_pairwise rest [c0] (List.pairwise_singleton _ c0) ?_ hsorted.2
    intro a ha r hr
    rw [List.mem_singleton] at ha
    subst ha
    exact hsorted.1 r hr

/-! Small helpers: reduction of Except bind, and congruence of List.any. -/

@[simp] theorem except_bind_ok {α β ε : Type} (a : α) (f : α → Except ε β) :
    (Except.ok a >>= f) = f a := rfl

@[simp] theorem except_bind_error {α β ε : Type} (e : ε) (f : α → Except ε β) :
    ((Except.error e : Except ε α) >>= f) = Except.error e := rfl

theorem any_congr_mem {p q : α → Bool} :
    ∀ {l : List α}, (∀ x ∈ l, p x = q x) → l.any p = l.any q := by
  intro l
  induction l with
  | nil => intro _; rfl
  | cons a as ih =>
    intro h
    simp only [List.any_cons]
    rw [h a (List.mem_cons_self a as), ih (fun x hx => h x (List.mem_cons_of_mem a hx))]

/-- C5: constructing Chunk(start_offset=s, end_offset=e) succeeds exactly when
0 <= s < e (otherwise InvalidInputFormat is raised), and every successfully
constructed chunk carries the given offsets and satisfies the invariant
0 <= start_offset < end_offset. -/
theorem chunk_make_ok_iff (s e : Int) :
    ((∃ c, Chunk.make s e = .ok c) ↔ (0 ≤ s ∧ s < e)) ∧
    (∀ c, Chunk.make s e = .ok c →
      c.start_offset = s ∧ c.end_offset = e ∧
        0 ≤ c.start_offset ∧ c.start_offset < c.end_offset) := by
  unfold Chunk.make Chunk.validate
  split
  · rename_i h
    constructor
    · constructor
      · rintro ⟨c, hc⟩
        simp at hc
      · intro hb
        omega
    · intro c hc
      simp at hc
  · split
    · rename_i h1 h2
      constructor
      · constructor
        · rintro ⟨c, hc⟩
          simp at hc
        · intro hb
          omega
      · intro c hc
        simp at hc
    · rename_i h1 h2
      constructor
      · constructor
        · intro _
          omega
        · intro _
          exact ⟨⟨s, e⟩, rfl⟩
      · intro c hc
        simp at hc
        subst hc
        simp
        omega

/-- Witness for C5 at s = 1, e = 5. -/
theorem chunk_make_ok_iff_witness :
    (∃ c, Chunk.make 1 5 = .ok c) ∧
      Chunk.make 1 5 = .ok ⟨1, 5⟩ ∧ (0 : Int) ≤ 1 ∧ (1 : Int) < 5 := by
  refine ⟨(chunk_make_ok_iff 1 5).1.mpr (by decide), rfl, ?_⟩
  have h := (chunk_make_ok_iff 1 5).2 ⟨1, 5⟩ rfl
  exact ⟨h.2.2.1, h.2.2.2⟩

theorem size_le_chunkMaxSize : ∀ {l : List ValidChunk}, ∀ c ∈ l, c.size.toNat ≤ chunkMaxSize l := by
  intro l
  induction l with
  | nil => intro c hc; cases hc
  | cons a as ih =>
    intro c hc
    rcases List.mem_cons.mp hc with rfl | hc
    · simp [chunkMaxSize]
    · have := ih c hc
      simp only [chunkMaxSize, List.foldr_cons] at *
      omega

theorem outerFuel_of_oversized {l : List ValidChunk} {c : ValidChunk}
    (hbig : ∀ d ∈ l, ¬(c.size.toNat < d.size.toNat)) :
    ∀ fuel, outerFuel fuel l c = true := by
  intro fuel
  cases fuel with
  | zero => rfl
  | succ n =>
    simp only [outerFuel, Bool.not_eq_true']
    rw [List.any_eq_false]
    intro d hd
    have := hbig d hd
    simp only [Bool.and_eq_true, decide_eq_true_eq, not_and]
    intro h1 _
    exact absurd h1.2 this

theorem outerFuel_congr {l : List ValidChunk} :
    ∀ (n f₁ f₂ : Nat) (c : ValidChunk),
      chunkMaxSize l + 1 - c.size.toNat ≤ n → n ≤ f₁ → n ≤ f₂ →
      outerFuel f₁ l c = outerFuel f₂ l c := by
  intro n
  induction n with
  | zero =>
    intro f₁ f₂ c hn _ _
    have hbig : ∀ d ∈ l, ¬(c.size.toNat < d.size.toNat) := by
      intro d hd
      have := size_le_chunkMaxSize d hd
      omega
    rw [outerFuel_of_oversized hbig f₁, outerFuel_of_oversized hbig f₂]
  | succ m ih =>
    intro f₁ f₂ c hn h1 h2
    by_cases hsm : chunkMaxSize l + 1 - c.size.toNat ≤ m
    · exact ih f₁ f₂ c hsm (by omega) (by omega)
    · match f₁, f₂, h1, h2 with
      | a + 1, b + 1, h1, h2 =>
        simp only [outerFuel]
        congr 1
        apply any_congr_mem
        intro d hd
        by_cases hlt : c.size.toNat < d.size.toNat
        · have hda : chunkMaxSize l + 1 - d.size.toNat ≤ m := by
            have := size_le_chunkMaxSize d hd
            omega
          rw [ih a b d hda (by omega) (by omega)]
        · simp [hlt]

theorem outerFuel_eq_isOuter {l : List ValidChunk} {c : ValidChunk} {fuel : Nat}
    (h : chunkMaxSize l + 1 - c.size.toNat ≤ fuel) :
    outerFuel fuel l c = isOuter l c :=
  outerFuel_congr (chunkMaxSize l + 1 - c.size.toNat) fuel
    (chunkMaxSize l + 1 - c.size.toNat) c (le_refl _) h (le_refl _)

/-- Fixed-point description of isOuter. -/
theorem isOuter_iff {l : List ValidChunk} {c : ValidChunk} :
    isOuter l c = true ↔
      ∀ d ∈ l, ¬(d.contains c = true ∧ c.size.toNat < d.size.toNat ∧ isOuter l d = true) := by
  by_cases hbig : ∀ d ∈ l, ¬(c.size.toNat < d.size.toNat)
  · constructor
    · intro _ d hd h
      exact hbig d hd h.2.1
    · intro _
      exact outerFuel_of_oversized hbig _
  · have hfuel : 1 ≤ chunkMaxSize l + 1 - c.size.toNat := by
      push_neg at hbig
      obtain ⟨d, hd, hlt⟩ := hbig
      have := size_le_chunkMaxSize d hd
      omega
    obtain ⟨m, hm⟩ : ∃ m, chunkMaxSize l + 1 - c.size.toNat = m + 1 :=
      ⟨chunkMaxSize l - c.size.toNat, by omega⟩
    have hiso : isOuter l c = outerFuel (m + 1) l c := by
      unfold isOuter
      rw [hm]
    rw [hiso]
    simp only [outerFuel, Bool.not_eq_true']
    rw [List.any_eq_false]
    have hconv : ∀ d ∈ l, c.size.toNat < d.size.toNat →
        outerFuel m l d = isOuter l d := by
      intro d hd hlt
      apply outerFuel_eq_isOuter
      have := size_le_chunkMaxSize d hd
      omega
    constructor
    · intro h d hd hcon
      have hthis := h d hd
      simp only [Bool.and_eq_true, decide_eq_true_eq, not_and] at hthis
      exact hthis ⟨hcon.1, hcon.2.1⟩ (by rw [hconv d hd hcon.2.1]; exact hcon.2.2)
    · intro h d hd
      simp only [Bool.and_eq_true, decide_eq_true_eq, not_and]
      intro h1 h2
      rw [hconv d hd h1.2] at h2
      exact h d hd ⟨h1.1, h1.2, h2⟩

theorem any_perm {l₁ l₂ : List α} (h : l₁.Perm l₂) (p : α → Bool) :
    l₁.any p = l₂.any p := by
  cases hb : l₂.any p
  · rw [List.any_eq_false] at hb ⊢
    intro x hx
    exact hb x (h.mem_iff.mp hx)
  · rw [List.any_eq_true] at hb ⊢
    obtain ⟨x, hx, hpx⟩ := hb
    exact ⟨x, h.mem_iff.mpr hx, hpx⟩

theorem chunkMaxSize_perm {l₁ l₂ : List ValidChunk} (h : l₁.Perm l₂) :
    chunkMaxSize l₁ = chunkMaxSize l₂ := by
  induction h with
  | nil => rfl
  | cons x h ih => simp [chunkMaxSize, List.foldr_cons] at *; omega
  | swap x y l => simp [chunkMaxSize, List.foldr_cons]; omega
  | trans h1 h2 ih1 ih2 => rw [ih1, ih2]

theorem outerFuel_perm {l₁ l₂ : List ValidChunk} (h : l₁.Perm l₂) :
    ∀ (fuel : Nat) (c : ValidChunk), outerFuel fuel l₁ c = outerFuel fuel l₂ c := by
  intro fuel
  induction fuel with
  | zero => intro c; rfl
  | succ n ih =>
    intro c
    simp only [outerFuel]
    congr 1
    have hstep : l₁.any (fun d =>
        d.contains c && decide (c.size.toNat < d.size.toNat) && outerFuel n l₁ d) =
      l₁.any (fun d =>
        d.contains c && decide (c.size.toNat < d.size.toNat) && outerFuel n l₂ d) := by
      apply any_congr_mem
      intro d _
      rw [ih d]
    rw [hstep]
    exact any_perm h _

theorem isOuter_perm {l₁ l₂ : List ValidChunk} (h : l₁.Perm l₂) (c : ValidChunk) :
    isOuter l₁ c = isOuter l₂ c := by
  unfold isOuter
  rw [chunkMaxSize_perm h, outerFuel_perm h]

/-! Characterisation of remove_inner_chunks as an order-insensitive filter. -/

theorem removeInnerLoop_filter (s : List ValidChunk)
    (hsorted : List.Pairwise (fun a b => b.size ≤ a.size) s)
    (hvalid : ∀ c ∈ s, 0 < c.size) :
    ∀ (rest pre : List ValidChunk), s = pre ++ rest →
      removeInnerLoop (pre.filter (fun c => isOuter s c)) rest =
        s.filter (fun c => isOuter s c) := by
  intro rest
  induction rest with
  | nil =>
    intro pre h
    rw [List.append_nil] at h
    rw [← h]
    rfl
  | cons c cs ih =>
    intro pre hs
    have hmem_c : c ∈ s := by
      rw [hs]
      exact List.mem_append.mpr (Or.inr (List.mem_cons_self c cs))
    have hany_iff :
        ((pre.filter (fun x => isOuter s x)).any (fun outer => outer.contains c) = true)
          ↔ isOuter s c = false := by
      constructor
      · intro hany
        obtain ⟨d, hd, hdc⟩ := List.any_eq_true.mp hany
        rw [List.mem_filter] at hd
        have hdmem : d ∈ s := by
          rw [hs]
          exact List.mem_append.mpr (Or.inl hd.1)
        have hlt : c.size.toNat < d.size.toNat := by
          have h1 : c.size < d.size := vcontains_size_lt hdc
          have h2 : 0 < c.size := hvalid c hmem_c
          omega
        cases hoc : isOuter s c
        · rfl
        · exact absurd ⟨hdc, hlt, hd.2⟩ ((isOuter_iff.mp hoc) d hdmem)
      · intro hfalse
        have hnA : ¬(∀ d ∈ s,
            ¬(d.contains c = true ∧ c.size.toNat < d.size.toNat ∧ isOuter s d = true)) := by
          intro hA
          have := isOuter_iff.mpr hA
          rw [this] at hfalse
          cases hfalse
        push_neg at hnA
        obtain ⟨d, hdmem, hcon⟩ := hnA
        obtain ⟨hc1, hc2, hc3⟩ := hcon
        have hd_size : c.size < d.size := by
          have h2 : 0 < c.size := hvalid c hmem_c
          omega
        have hd_pre : d ∈ pre := by
          rw [hs] at hdmem
          rcases List.mem_append.mp hdmem with h | h
          · exact h
          · exfalso
            rcases List.mem_cons.mp h with rfl | h
            · omega
            · have hsub : (c :: cs).Sublist s := by
                rw [hs]
                exact List.sublist_append_right pre (c :: cs)
              have hp := List.Pairwise.sublist hsub hsorted
              have := List.rel_of_pairwise_cons hp h
              omega
        exact List.any_eq_true.mpr ⟨d, List.mem_filter.mpr ⟨hd_pre, hc3⟩, hc1⟩
    simp only [removeInnerLoop]
    cases hoc : isOuter s c with
    | true =>
      have hany : (pre.filter (fun x => isOuter s x)).any (fun outer => outer.contains c)
          = false := by
        cases hx : (pre.filter (fun x => isOuter s x)).any (fun outer => outer.contains c)
        · rfl
        · rw [hany_iff.mp hx] at hoc
          cases hoc
      rw [hany]
      have happ : (pre ++ [c]).filter (fun x => isOuter s x)
          = pre.filter (fun x => isOuter s x) ++ [c] := by
        rw [List.filter_append]
        simp [List.filter, hoc]
      have hres := ih (pre ++ [c]) (by rw [hs, List.append_assoc]; rfl)
      rw [happ] at hres
      simpa using hres
    | false =>
      have hany := hany_iff.mpr hoc
      rw [hany]
      have happ : (pre ++ [c]).filter (fun x => isOuter s x)
          = pre.filter (fun x => isOuter s x) := by
        rw [List.filter_append]
        simp [List.filter, hoc]
      have hres := ih (pre ++ [c]) (by rw [hs, List.append_assoc]; rfl)
      rw [happ] at hres
      simpa using hres

theorem isOuter_head {c0 : ValidChunk} {rest : List ValidChunk}
    (hsorted : List.Pairwise (fun a b : ValidChunk => b.size ≤ a.size) (c0 :: rest)) :
    isOuter (c0 :: rest) c0 = true := by
  rw [isOuter_iff]
  intro d hd hcon
  have hle : d.size ≤ c0.size := by
    rcases List.mem_cons.mp hd with rfl | hd
    · exact le_refl _
    · exact List.rel_of_pairwise_cons hsorted hd
  have := Int.toNat_le_toNat hle
  omega

theorem sortK_size_desc (chunks : List ValidChunk) :
    List.Pairwise (fun a b : ValidChunk => b.size ≤ a.size)
      (sortK (fun c => -c.size) chunks) := by
  have h := sortK_sorted (fun c : ValidChunk => -c.size) chunks
  exact h.imp (by intro a b hab; omega)

theorem remove_inner_chunks_eq_filter (chunks : List ValidChunk)
    (hvalid : ∀ c ∈ chunks, 0 < c.size) :
    remove_inner_chunks chunks =
      (sortK (fun c => -c.size) chunks).filter
        (fun c => isOuter (sortK (fun c => -c.size) chunks) c) := by
  unfold remove_inner_chunks
  split
  · rename_i hnil
    rw [hnil]
    rfl
  · rename_i c0 rest hsort
    have hsorted : List.Pairwise (fun a b : ValidChunk => b.size ≤ a.size) (c0 :: rest) := by
      have h := sortK_size_desc chunks
      rw [hsort] at h
      exact h
    have hvalid2 : ∀ c ∈ (c0 :: rest), 0 < c.size := by
      intro c hc
      apply hvalid
      exact (sortK_perm (fun c => -c.size) chunks).mem_iff.mp (by rw [hsort]; exact hc)
    rw [hsort]
    have hstart := removeInnerLoop_filter (c0 :: rest) hsorted hvalid2 rest [c0] rfl
    rw [← hstart]
    congr 1
    simp [List.filter, isOuter_head hsorted]

theorem count_remove_inner (chunks : List ValidChunk)
    (hvalid : ∀ c ∈ chunks, 0 < c.size) (a : ValidChunk) :
    List.count a (remove_inner_chunks chunks) =
      if isOuter (sortK (fun c => -c.size) chunks) a = true
      then List.count a chunks else 0 := by
  rw [remove_inner_chunks_eq_filter chunks hvalid]
  by_cases h : isOuter (sortK (fun c => -c.size) chunks) a = true
  · rw [if_pos h, List.count_filter h]
    exact (sortK_perm _ chunks).count_eq a
  · rw [if_neg h, List.count_eq_zero]
    intro hmem
    exact h (List.mem_filter.mp hmem).2

theorem remove_inner_chunks_perm {C₁ C₂ : List ValidChunk} (hperm : C₁.Perm C₂)
    (hvalid : ∀ c ∈ C₂, 0 < c.size) :
    (remove_inner_chunks C₁).Perm (remove_inner_chunks C₂) := by
  have hvalid1 : ∀ c ∈ C₁, 0 < c.size := fun c hc => hvalid c (hperm.mem_iff.mp hc)
  rw [List.perm_iff_count]
  intro a
  rw [count_remove_inner C₁ hvalid1 a, count_remove_inner C₂ hvalid a]
  have hsp : (sortK (fun c => -c.size) C₁).Perm (sortK (fun c => -c.size) C₂) :=
    ((sortK_perm _ C₁).trans hperm).trans (sortK_perm _ C₂).symm
  rw [isOuter_perm hsp a, hperm.count_eq a]

theorem remove_inner_chunks_size_sorted (chunks : List ValidChunk) :
    List.Pairwise (fun a b : ValidChunk => b.size ≤ a.size)
      (remove_inner_chunks chunks) := by
  unfold remove_inner_chunks
  split
  · exact List.Pairwise.nil
  · rename_i c0 rest hsort
    have hsub := removeInnerLoop_sublist rest [c0]
    have hsorted : List.Pairwise (fun a b : ValidChunk => b.size ≤ a.size) (c0 :: rest) := by
      have h := sortK_size_desc chunks
      rw [hsort] at h
      exact h
    exact List.Pairwise.sublist hsub hsorted

/-! The gap computation depends only on the offsets of the offset-sorted
chunks, and the offset-sorted key sequence of the reconciled chunks is
invariant under permutation of the input. -/

theorem headGap_congr {a b : ValidChunk} (h : a.start_offset = b.start_offset) :
    headGap a = headGap b := by
  unfold headGap
  rw [h]

theorem tailGap_congr {a b : ValidChunk} (h : a.end_offset = b.end_offset) (S : Int) :
    tailGap a S = tailGap b S := by
  unfold tailGap
  rw [h]

theorem pairGaps_congr :
    ∀ {u v : List ValidChunk},
      u.map (fun c => c.toChunk) = v.map (fun c => c.toChunk) → pairGaps u = pairGaps v := by
  intro u
  induction u with
  | nil =>
    intro v h
    cases v with
    | nil => rfl
    | cons b v2 => simp at h
  | cons a u2 ih =>
    intro v h
    cases v with
    | nil => simp at h
    | cons b v2 =>
      simp only [List.map_cons, List.cons.injEq] at h
      obtain ⟨hab, htail⟩ := h
      cases u2 with
      | nil =>
        cases v2 with
        | nil => rfl
        | cons => simp at htail
      | cons a2 u3 =>
        cases v2 with
        | nil => simp at htail
        | cons b2 v3 =>
          have h2 := htail
          simp only [List.map_cons, List.cons.injEq] at h2
          have hrec := ih htail
          have hs : a2.start_offset = b2.start_offset := congrArg Chunk.start_offset h2.1
          have he : a.end_offset = b.end_offset := congrArg Chunk.end_offset hab
          simp only [pairGaps]
          rw [hs, he, hrec]

theorem map_toChunk_getLast :
    ∀ {u v : List ValidChunk},
      u.map (fun c => c.toChunk) = v.map (fun c => c.toChunk) →
      ∀ (hu : u ≠ []) (hv : v ≠ []),
      (u.getLast hu).toChunk = (v.getLast hv).toChunk := by
  intro u v h hu hv
  have h1 : (u.map (fun c => c.toChunk)).getLast? = (v.map (fun c => c.toChunk)).getLast? := by
    rw [h]
  rw [List.getLast?_map, List.getLast?_map] at h1
  rw [List.getLast?_eq_getLast u hu, List.getLast?_eq_getLast v hv] at h1
  simpa using h1

theorem calcUnknownSorted_congr {u v : List ValidChunk}
    (h : u.map (fun c => c.toChunk) = v.map (fun c => c.toChunk)) (S : Int) :
    calcUnknownSorted u S = calcUnknownSorted v S := by
  cases u with
  | nil =>
    cases v with
    | nil => rfl
    | cons => simp at h
  | cons a u2 =>
    cases v with
    | nil => simp at h
    | cons b v2 =>
      have hmc := h
      simp only [List.map_cons, List.cons.injEq] at hmc
      have hs : a.start_offset = b.start_offset := congrArg Chunk.start_offset hmc.1
      have hgl := map_toChunk_getLast h (List.cons_ne_nil a u2) (List.cons_ne_nil b v2)
      have hge : ((a :: u2).getLast (List.cons_ne_nil a u2)).end_offset
          = ((b :: v2).getLast (List.cons_ne_nil b v2)).end_offset :=
        congrArg Chunk.end_offset hgl
      simp only [calcUnknownSorted]
      rw [headGap_congr hs, pairGaps_congr h, tailGap_congr hge]

theorem calculate_unknown_chunks_congr {l₁ l₂ : List ValidChunk}
    (h : (sortK (fun c => c.start_offset) l₁).map (fun c => c.toChunk)
       = (sortK (fun c => c.start_offset) l₂).map (fun c => c.toChunk)) (S : Int) :
    calculate_unknown_chunks l₁ S = calculate_unknown_chunks l₂ S := by
  have hlen : l₁.length = l₂.length := by
    have h1 := congrArg List.length h
    simp only [List.length_map] at h1
    rw [(sortK_perm _ l₁).length_eq, (sortK_perm _ l₂).length_eq] at h1
    exact h1
  have hemp : l₁.isEmpty = l₂.isEmpty := by
    cases l₁ <;> cases l₂ <;> simp_all
  unfold calculate_unknown_chunks
  rw [hemp]
  split
  · rfl
  · exact calcUnknownSorted_congr h S

/-- Pairwise ordering of the offset keys of an offset-sorted list obtained
from a size-descending list: start offsets ascend, and chunks with equal
start have descending end offsets (from the stability of the sort). -/
theorem sorted_offset_key_pairwise {l : List ValidChunk}
    (hsz : List.Pairwise (fun a b : ValidChunk => b.size ≤ a.size) l) :
    List.Pairwise
      (fun x y : Chunk =>
        x.start_offset < y.start_offset ∨
          (x.start_offset = y.start_offset ∧ y.end_offset ≤ x.end_offset))
      ((sortK (fun c => c.start_offset) l).map (fun c => c.toChunk)) := by
  rw [List.pairwise_map]
  have h := sortK_pairwise_stable (k := fun c : ValidChunk => c.start_offset)
    (w := fun c : ValidChunk => c.size) hsz
  refine h.imp ?_
  intro a b hab
  rcases hab with h1 | h1
  · exact Or.inl h1
  · refine Or.inr ⟨h1.1, ?_⟩
    have hs : a.start_offset = b.start_offset := h1.1
    have hw : b.size ≤ a.size := h1.2
    unfold ValidChunk.size Chunk.size at hw
    omega

theorem sorted_key_lists_eq {l₁ l₂ : List Chunk} (hperm : l₁.Perm l₂)
    (h₁ : List.Pairwise
      (fun x y : Chunk =>
        x.start_offset < y.start_offset ∨
          (x.start_offset = y.start_offset ∧ y.end_offset ≤ x.end_offset)) l₁)
    (h₂ : List.Pairwise
      (fun x y : Chunk =>
        x.start_offset < y.start_offset ∨
          (x.start_offset = y.start_offset ∧ y.end_offset ≤ x.end_offset)) l₂) :
    l₁ = l₂ := by
  haveI : IsAntisymm Chunk
      (fun x y : Chunk =>
        x.start_offset < y.start_offset ∨
          (x.start_offset = y.start_offset ∧ y.end_offset ≤ x.end_offset)) := by
    constructor
    intro a b hab hba
    have e1 : a.start_offset = b.start_offset := by
      rcases hab with h | h <;> rcases hba with h2 | h2 <;> omega
    have e2 : a.end_offset = b.end_offset := by
      rcases hab with h | h <;> rcases hba with h2 | h2 <;> omega
    cases a
    cases b
    simp_all
  exact List.eq_of_perm_of_sorted hperm h₁ h₂

/-- C6: for valid chunks, the unknown-chunk computation after inner-chunk
removal is invariant under permutation of the input chunk list. -/
theorem calculate_unknown_remove_inner_perm_invariant
    (C C' : List ValidChunk) (S : Int)
    (hvalid : ∀ c ∈ C, 0 ≤ c.start_offset ∧ c.start_offset < c.end_offset)
    (hperm : C'.Perm C) :
    calculate_unknown_chunks (remove_inner_chunks C') S =
      calculate_unknown_chunks (remove_inner_chunks C) S := by
  have hvsz : ∀ c ∈ C, 0 < c.size := by
    intro c hc
    have := hvalid c hc
    unfold ValidChunk.size Chunk.size
    omega
  refine calculate_unknown_chunks_congr ?_ S
  refine sorted_key_lists_eq ?_
    (sorted_offset_key_pairwise (remove_inner_chunks_size_sorted C'))
    (sorted_offset_key_pairwise (remove_inner_chunks_size_sorted C))
  refine List.Perm.map _ ?_
  exact ((sortK_perm _ _).trans (remove_inner_chunks_perm hperm hvsz)).trans
    (sortK_perm _ _).symm

/-- Witness for C6 at a concrete two-element list and its reversal. -/
theorem calculate_unknown_remove_inner_perm_invariant_witness :
    (∀ c ∈ ([⟨⟨0, 5⟩, false⟩, ⟨⟨10, 12⟩, false⟩] : List ValidChunk),
        0 ≤ c.start_offset ∧ c.start_offset < c.end_offset) ∧
    (([⟨⟨10, 12⟩, false⟩, ⟨⟨0, 5⟩, false⟩] : List ValidChunk)).Perm
      [⟨⟨0, 5⟩, false⟩, ⟨⟨10, 12⟩, false⟩] ∧
    calculate_unknown_chunks
        (remove_inner_chunks [⟨⟨10, 12⟩, false⟩, ⟨⟨0, 5⟩, false⟩]) 12 =
      calculate_unknown_chunks
        (remove_inner_chunks [⟨⟨0, 5⟩, false⟩, ⟨⟨10, 12⟩, false⟩]) 12 :=
  ⟨by decide, by decide,
    calculate_unknown_remove_inner_perm_invariant
      [⟨⟨0, 5⟩, false⟩, ⟨⟨10, 12⟩, false⟩]
      [⟨⟨10, 12⟩, false⟩, ⟨⟨0, 5⟩, false⟩] 12 (by decide) (by decide)⟩

theorem contains_offset_iff {c : Chunk} {x : Int} :
    c.contains_offset x = true ↔ c.start_offset ≤ x ∧ x < c.end_offset := by
  simp [Chunk.contains_offset]

theorem chainOK_le : ∀ {l : List Chunk} {p S : Int}, chainOK p S l → p ≤ S := by
  intro l
  induction l with
  | nil => intro p S h; exact h
  | cons c rest ih =>
    intro p S h
    obtain ⟨h1, h2, h3⟩ := h
    have := ih h3
    omega

theorem chainAll_perm :
    ∀ (l : List Chunk) (p S : Int), (chainAll p S l).Perm (chainGaps p S l ++ l) := by
  intro l
  induction l with
  | nil => intro p S; simp [chainAll, chainGaps]
  | cons c rest ih =>
    intro p S
    simp only [chainAll, chainGaps]
    rw [List.append_assoc]
    refine List.Perm.append_left _ ?_
    refine (List.Perm.cons c (ih c.end_offset S)).trans ?_
    exact List.perm_middle.symm

theorem chainAll_bounds :
    ∀ {l : List Chunk} {p S : Int}, chainOK p S l →
      ∀ c ∈ chainAll p S l,
        p ≤ c.start_offset ∧ c.start_offset < c.end_offset ∧ c.end_offset ≤ S := by
  intro l
  induction l with
  | nil =>
    intro p S h c hc
    simp only [chainAll] at hc
    split at hc
    · rw [List.mem_singleton] at hc
      subst hc
      simp
      omega
    · cases hc
  | cons a rest ih =>
    intro p S h c hc
    obtain ⟨h1, h2, h3⟩ := h
    have hendS : a.end_offset ≤ S := chainOK_le h3
    simp only [chainAll] at hc
    rcases List.mem_append.mp hc with hc | hc
    · split at hc
      · rw [List.mem_singleton] at hc
        subst hc
        simp
        omega
      · cases hc
    · rcases List.mem_cons.mp hc with rfl | hc
      · exact ⟨h1, h2, hendS⟩
      · have := ih h3 c hc
        omega

theorem chainAll_cover :
    ∀ {l : List Chunk} {p S : Int}, chainOK p S l →
      ∀ x : Int, (p ≤ x ∧ x < S) ↔ ∃ c ∈ chainAll p S l, c.contains_offset x = true := by
  intro l
  induction l with
  | nil =>
    intro p S h x
    simp only [chainAll]
    split
    · simp only [List.mem_singleton]
      constructor
      · intro hx
        exact ⟨⟨p, S⟩, rfl, contains_offset_iff.mpr (by simp; omega)⟩
      · rintro ⟨c, rfl, hc⟩
        have := contains_offset_iff.mp hc
        simp at this
        omega
    · constructor
      · intro hx
        omega
      · rintro ⟨c, hc, _⟩
        cases hc
  | cons a rest ih =>
    intro p S h x
    obtain ⟨h1, h2, h3⟩ := h
    have hiha := ih h3 x
    simp only [chainAll]
    constructor
    · intro hx
      by_cases hxa : x < a.start_offset
      · have hps : p < a.start_offset := by omega
        refine ⟨⟨p, a.start_offset⟩, ?_, contains_offset_iff.mpr (by simp; omega)⟩
        rw [if_pos hps]
        exact List.mem_append.mpr (Or.inl (List.mem_singleton.mpr rfl))
      · by_cases hxe : x < a.end_offset
        · refine ⟨a, ?_, contains_offset_iff.mpr (by omega)⟩
          exact List.mem_append.mpr (Or.inr (List.mem_cons_self a _))
        · obtain ⟨c, hc, hcx⟩ := hiha.mp (by omega)
          exact ⟨c, List.mem_append.mpr (Or.inr (List.mem_cons_of_mem a hc)), hcx⟩
    · rintro ⟨c, hc, hcx⟩
      have hx := contains_offset_iff.mp hcx
      rcases List.mem_append.mp hc with hc | hc
      · split at hc
        · rw [List.mem_singleton] at hc
          subst hc
          simp at hx
          have : a.start_offset < a.end_offset := h2
          have := chainOK_le h3
          omega
        · cases hc
      · rcases List.mem_cons.mp hc with rfl | hc
        · have := chainOK_le h3
          omega
        · have hb := chainAll_bounds h3 c hc
          have := hiha.mpr ⟨c, hc, hcx⟩
          omega

theorem chainAll_disjoint :
    ∀ {l : List Chunk} {p S : Int}, chainOK p S l →
      List.Pairwise
        (fun a b => ∀ x : Int,
          ¬(a.contains_offset x = true ∧ b.contains_offset x = true))
        (chainAll p S l) := by
  intro l
  induction l with
  | nil =>
    intro p S h
    simp only [chainAll]
    split
    · exact List.pairwise_singleton _ _
    · exact List.Pairwise.nil
  | cons a rest ih =>
    intro p S h
    obtain ⟨h1, h2, h3⟩ := h
    simp only [chainAll]
    rw [List.pairwise_append]
    refine ⟨?_, ?_, ?_⟩
    · split
      · exact List.pairwise_singleton _ _
      · exact List.Pairwise.nil
    · rw [List.pairwise_cons]
      constructor
      · intro b hb x hcon
        have hxa := contains_offset_iff.mp hcon.1
        have hxb := contains_offset_iff.mp hcon.2
        have hbb := chainAll_bounds h3 b hb
        omega
      · exact ih h3
    · intro g hg b hb x hcon
      have hgap : g.start_offset = p ∧ g.end_offset = a.start_offset := by
        split at hg
        · rw [List.mem_singleton] at hg
          subst hg
          exact ⟨rfl, rfl⟩
        · cases hg
      have hxg := contains_offset_iff.mp hcon.1
      have hxb := contains_offset_iff.mp hcon.2
      rcases List.mem_cons.mp hb with rfl | hb
      · omega
      · have hbb := chainAll_bounds h3 b hb
        omega

/-! Bridge: on a chained list the gap computation of the source succeeds and
produces exactly the chainGaps description. -/

theorem pairtail_eq_chainGaps (S : Int) :
    ∀ (rest : List ValidChunk) (a : ValidChunk),
      0 ≤ a.end_offset →
      chainOK a.end_offset S (rest.map (fun c => c.toChunk)) →
      ∃ ms ts, pairGaps (a :: rest) = .ok ms ∧
        tailGap ((a :: rest).getLast (List.cons_ne_nil a rest)) S = .ok ts ∧
        (ms ++ ts).map (fun u => u.toChunk) =
          chainGaps a.end_offset S (rest.map (fun c => c.toChunk)) := by
  intro rest
  induction rest with
  | nil =>
    intro a ha hch
    simp only [List.map_nil, chainOK] at hch
    by_cases hlt : a.end_offset < S
    · refine ⟨[], [⟨⟨a.end_offset, S⟩⟩], rfl, ?_, ?_⟩
      · unfold tailGap UnknownChunk.make Chunk.validate
        rw [List.getLast_singleton]
        rw [if_pos hlt]
        rw [if_neg (by omega), if_neg (by omega)]
        rfl
      · simp only [List.nil_append, List.map_cons, List.map_nil, chainGaps]
        rw [if_pos hlt]
    · refine ⟨[], [], rfl, ?_, ?_⟩
      · unfold tailGap
        rw [List.getLast_singleton]
        rw [if_neg hlt]
        rfl
      · simp only [List.append_nil, List.map_nil, chainGaps]
        rw [if_neg hlt]
  | cons b rest2 ih =>
    intro a ha hch
    simp only [List.map_cons, chainOK] at hch
    obtain ⟨hab, hbb, hch2⟩ := hch
    have hb0 : 0 ≤ b.end_offset := by omega
    obtain ⟨ms, ts, hpg, htg, hmap⟩ := ih b hb0 hch2
    have hlast : ((a :: b :: rest2).getLast (List.cons_ne_nil a (b :: rest2)))
        = ((b :: rest2).getLast (List.cons_ne_nil b rest2)) :=
      List.getLast_cons (List.cons_ne_nil b rest2)
    by_cases heq : b.start_offset - a.end_offset ≠ 0
    · have hlt : a.end_offset < b.start_offset := by omega
      refine ⟨⟨⟨a.end_offset, b.start_offset⟩⟩ :: ms, ts, ?_, ?_, ?_⟩
      · simp only [pairGaps]
        rw [if_pos heq]
        unfold UnknownChunk.make Chunk.validate
        rw [if_neg (by omega), if_neg (by omega)]
        simp only [except_bind_ok]
        rw [hpg]
        rfl
      · rw [hlast]
        exact htg
      · simp only [List.cons_append, List.map_cons, chainGaps]
        rw [if_pos hlt, hmap]
        rfl
    · have heq2 : a.end_offset = b.start_offset := by omega
      refine ⟨ms, ts, ?_, ?_, ?_⟩
      · simp only [pairGaps]
        rw [if_neg heq]
        exact hpg
      · rw [hlast]
        exact htg
      · simp only [chainGaps]
        rw [if_neg (by omega), hmap, List.nil_append]

theorem removeInnerLoop_length :
    ∀ (rest acc : List ValidChunk), acc.length ≤ (removeInnerLoop acc rest).length := by
  intro rest
  induction rest with
  | nil => intro acc; exact le_refl _
  | cons c cs ih =>
    intro acc
    simp only [removeInnerLoop]
    split
    · exact ih acc
    · have := ih (acc ++ [c])
      simp only [List.length_append, List.length_singleton] at this
      omega

theorem remove_inner_chunks_ne_nil {chunks : List ValidChunk} (h : chunks ≠ []) :
    remove_inner_chunks chunks ≠ [] := by
  unfold remove_inner_chunks
  split
  · rename_i hnil
    exfalso
    apply h
    have hlen := (sortK_perm (fun c => -c.size) chunks).length_eq
    rw [hnil] at hlen
    exact List.length_eq_zero.mp (by simpa using hlen.symm)
  · rename_i c0 rest hsort
    intro hcon
    have := removeInnerLoop_length rest [c0]
    rw [hcon] at this
    simp at this

theorem remove_inner_chunks_mem {chunks : List ValidChunk} {c : ValidChunk}
    (h : c ∈ remove_inner_chunks chunks) : c ∈ chunks := by
  have hsub : (remove_inner_chunks chunks).Sublist (sortK (fun c => -c.size) chunks) := by
    unfold remove_inner_chunks
    split
    · simp
    · rename_i c0 rest hsort
      rw [hsort]
      exact removeInnerLoop_sublist rest [c0]
  exact (sortK_perm (fun c => -c.size) chunks).mem_iff.mp (hsub.mem h)

theorem calc_unknown_eq_chainGaps (outer : List ValidChunk) (S : Int)
    (houter : outer ≠ [])
    (hS : S ≠ 0)
    (hchain : chainOK 0 S
      ((sortK (fun c => c.start_offset) outer).map (fun c => c.toChunk))) :
    ∃ gaps, calculate_unknown_chunks outer S = .ok gaps ∧
      gaps.map (fun u => u.toChunk) =
        chainGaps 0 S ((sortK (fun c => c.start_offset) outer).map (fun c => c.toChunk)) := by
  have hne : sortK (fun c : ValidChunk => c.start_offset) outer ≠ [] := by
    intro hcon
    have := (sortK_perm (fun c : ValidChunk => c.start_offset) outer).length_eq
    rw [hcon] at this
    exact houter (List.length_eq_zero.mp this.symm)
  obtain ⟨first, rest, hsort⟩ := List.exists_cons_of_ne_nil hne
  have hemp : outer.isEmpty = false := by
    cases outer
    · exact absurd rfl houter
    · rfl
  unfold calculate_unknown_chunks
  rw [hemp, hsort]
  simp only [Bool.false_or]
  rw [if_neg (by simpa using hS)]
  rw [hsort] at hchain
  simp only [List.map_cons, chainOK] at hchain
  obtain ⟨h1, h2, h3⟩ := hchain
  obtain ⟨ms, ts, hpg, htg, hmap⟩ := pairtail_eq_chainGaps S rest first (by omega) h3
  simp only [calcUnknownSorted]
  by_cases hz : first.start_offset ≠ 0
  · have h0lt : 0 < first.start_offset := by omega
    refine ⟨⟨⟨0, first.start_offset⟩⟩ :: (ms ++ ts), ?_, ?_⟩
    · unfold headGap UnknownChunk.make Chunk.validate
      rw [if_pos hz, if_neg (by omega), if_neg (by omega)]
      simp only [except_bind_ok, pure]
      rw [hpg]
      simp only [except_bind_ok]
      rw [htg]
      rfl
    · simp only [List.map_cons, chainGaps]
      rw [if_pos h0lt, hmap]
      rfl
  · refine ⟨ms ++ ts, ?_, ?_⟩
    · unfold headGap
      rw [if_neg hz]
      simp only [except_bind_ok, pure]
      rw [hpg]
      simp only [except_bind_ok]
      rw [htg]
      rfl
    · simp only [List.map_cons, chainGaps]
      rw [if_neg (by omega), hmap]
      rfl

theorem chainOK_of_sorted_disjoint (S : Int) :
    ∀ (l : List Chunk) (p : Int),
      List.Pairwise (fun a b => a.start_offset ≤ b.start_offset) l →
      List.Pairwise
        (fun a b => a.end_offset ≤ b.start_offset ∨ b.end_offset ≤ a.start_offset) l →
      (∀ c ∈ l, 0 ≤ c.start_offset ∧ c.start_offset < c.end_offset ∧ c.end_offset ≤ S) →
      p ≤ S → (∀ c ∈ l, p ≤ c.start_offset) →
      chainOK p S l := by
  intro l
  induction l with
  | nil => intro p _ _ _ hpS _; exact hpS
  | cons c rest ih =>
    intro p hsort hdisj hvalid hpS hp
    have hcv := hvalid c (List.mem_cons_self c rest)
    refine ⟨hp c (List.mem_cons_self c rest), hcv.2.1, ?_⟩
    refine ih c.end_offset (List.pairwise_cons.mp hsort).2 (List.pairwise_cons.mp hdisj).2
      (fun d hd => hvalid d (List.mem_cons_of_mem c hd)) hcv.2.2 ?_
    intro d hd
    have hsd := List.rel_of_pairwise_cons hsort hd
    have hdd := List.rel_of_pairwise_cons hdisj hd
    have hdv := hvalid d (List.mem_cons_of_mem c hd)
    rcases hdd with h | h
    · exact h
    · omega

/-- C1 (amended): for a non-empty list of valid chunks within the file and
with the reconciled outer chunks pairwise separated, the unknown-chunk
computation succeeds and outer plus unknown chunks tile the interval from
0 to S exactly. -/
theorem outer_unknown_tiling
    (C : List ValidChunk) (S : Int) (hne : C ≠ [])
    (hvalid : ∀ c ∈ C,
      0 ≤ c.start_offset ∧ c.start_offset < c.end_offset ∧ c.end_offset ≤ S)
    (hdisj : List.Pairwise
      (fun a b : ValidChunk =>
        a.end_offset ≤ b.start_offset ∨ b.end_offset ≤ a.start_offset)
      (remove_inner_chunks C)) :
    ∃ unknown, calculate_unknown_chunks (remove_inner_chunks C) S = .ok unknown ∧
      tiles ((remove_inner_chunks C).map (fun c => c.toChunk)
          ++ unknown.map (fun u => u.toChunk)) S := by
  have houter : remove_inner_chunks C ≠ [] := remove_inner_chunks_ne_nil hne
  have hSpos : 0 < S := by
    obtain ⟨c₀, hc₀⟩ := List.exists_mem_of_ne_nil C hne
    have := hvalid c₀ hc₀
    omega
  have hvalid_outer : ∀ c ∈ remove_inner_chunks C,
      0 ≤ c.start_offset ∧ c.start_offset < c.end_offset ∧ c.end_offset ≤ S :=
    fun c hc => hvalid c (remove_inner_chunks_mem hc)
  have hs_perm : (sortK (fun c : ValidChunk => c.start_offset)
      (remove_inner_chunks C)).Perm (remove_inner_chunks C) := sortK_perm _ _
  have hvalid_s : ∀ c ∈ sortK (fun c : ValidChunk => c.start_offset) (remove_inner_chunks C),
      0 ≤ c.start_offset ∧ c.start_offset < c.end_offset ∧ c.end_offset ≤ S :=
    fun c hc => hvalid_outer c (hs_perm.mem_iff.mp hc)
  have hsort_s : List.Pairwise (fun a b : Chunk => a.start_offset ≤ b.start_offset)
      ((sortK (fun c : ValidChunk => c.start_offset) (remove_inner_chunks C)).map
        (fun c => c.toChunk)) := by
    rw [List.pairwise_map]
    exact sortK_sorted _ _
  have hdisj_s : List.Pairwise
      (fun a b : Chunk => a.end_offset ≤ b.start_offset ∨ b.end_offset ≤ a.start_offset)
      ((sortK (fun c : ValidChunk => c.start_offset) (remove_inner_chunks C)).map
        (fun c => c.toChunk)) := by
    rw [List.pairwise_map]
    exact (hs_perm.pairwise_iff (fun h => h.symm)).mpr hdisj
  have hvalid_sm : ∀ c ∈ (sortK (fun c : ValidChunk => c.start_offset)
        (remove_inner_chunks C)).map (fun c => c.toChunk),
      0 ≤ c.start_offset ∧ c.start_offset < c.end_offset ∧ c.end_offset ≤ S := by
    intro c hc
    obtain ⟨v, hv, rfl⟩ := List.mem_map.mp hc
    exact hvalid_s v hv
  have hchain := chainOK_of_sorted_disjoint S
    ((sortK (fun c : ValidChunk => c.start_offset) (remove_inner_chunks C)).map
      (fun c => c.toChunk)) 0
    hsort_s hdisj_s hvalid_sm (by omega) (fun c hc => (hvalid_sm c hc).1)
  obtain ⟨gaps, hok, hmap⟩ :=
    calc_unknown_eq_chainGaps (remove_inner_chunks C) S houter (by omega) hchain
  refine ⟨gaps, hok, ?_⟩
  have hALLperm : (chainAll 0 S
      ((sortK (fun c : ValidChunk => c.start_offset) (remove_inner_chunks C)).map
        (fun c => c.toChunk))).Perm
      ((remove_inner_chunks C).map (fun c => c.toChunk)
        ++ gaps.map (fun u => u.toChunk)) := by
    refine (chainAll_perm _ 0 S).trans ?_
    rw [← hmap]
    refine (List.Perm.append_left _ (List.Perm.map _ hs_perm)).trans ?_
    exact List.perm_append_comm
  constructor
  · intro x
    rw [chainAll_cover hchain x]
    constructor
    · rintro ⟨c, hc, hcx⟩
      exact ⟨c, hALLperm.mem_iff.mp hc, hcx⟩
    · rintro ⟨c, hc, hcx⟩
      exact ⟨c, hALLperm.mem_iff.mpr hc, hcx⟩
  · refine (hALLperm.pairwise_iff ?_).mp (chainAll_disjoint hchain)
    intro x y hxy z hz
    exact hxy z ⟨hz.2, hz.1⟩

/-- Counterexample for C1 as stated: the two overlapping valid chunks from
offsets 0-2 and 1-3 in a file of size 3 both survive remove_inner_chunks
(neither contains the other), and calculate_unknown_chunks then raises
InvalidInputFormat on the negative gap instead of producing a tiling. -/
theorem tiling_counterexample :
    (∀ c ∈ ([⟨⟨0, 2⟩, false⟩, ⟨⟨1, 3⟩, false⟩] : List ValidChunk),
        0 ≤ c.start_offset ∧ c.start_offset < c.end_offset ∧ c.end_offset ≤ 3) ∧
    ¬ ∃ unknown,
        calculate_unknown_chunks
            (remove_inner_chunks [⟨⟨0, 2⟩, false⟩, ⟨⟨1, 3⟩, false⟩]) 3 = .ok unknown ∧
          tiles ((remove_inner_chunks
                [⟨⟨0, 2⟩, false⟩, ⟨⟨1, 3⟩, false⟩]).map (fun c => c.toChunk)
              ++ unknown.map (fun u => u.toChunk)) 3 := by
  refine ⟨by decide, ?_⟩
  rintro ⟨unknown, hok, _⟩
  have hcalc : calculate_unknown_chunks
      (remove_inner_chunks [⟨⟨0, 2⟩, false⟩, ⟨⟨1, 3⟩, false⟩]) 3
      = .error (.startNotBeforeEnd 2 1) := by decide
  rw [hcalc] at hok
  cases hok

/-- Witness for the amended C1 at a concrete separated input. -/
theorem outer_unknown_tiling_witness :
    (([⟨⟨3, 5⟩, false⟩, ⟨⟨0, 2⟩, false⟩] : List ValidChunk) ≠ []) ∧
    (∀ c ∈ ([⟨⟨3, 5⟩, false⟩, ⟨⟨0, 2⟩, false⟩] : List ValidChunk),
        0 ≤ c.start_offset ∧ c.start_offset < c.end_offset ∧ c.end_offset ≤ 6) ∧
    List.Pairwise
      (fun a b : ValidChunk =>
        a.end_offset ≤ b.start_offset ∨ b.end_offset ≤ a.start_offset)
      (remove_inner_chunks [⟨⟨3, 5⟩, false⟩, ⟨⟨0, 2⟩, false⟩]) ∧
    ∃ unknown, calculate_unknown_chunks
        (remove_inner_chunks [⟨⟨3, 5⟩, false⟩, ⟨⟨0, 2⟩, false⟩]) 6 = .ok unknown ∧
      tiles ((remove_inner_chunks
            [⟨⟨3, 5⟩, false⟩, ⟨⟨0, 2⟩, false⟩]).map (fun c => c.toChunk)
          ++ unknown.map (fun u => u.toChunk)) 6 :=
  ⟨by decide, by decide, by decide,
    outer_unknown_tiling [⟨⟨3, 5⟩, false⟩, ⟨⟨0, 2⟩, false⟩] 6
      (by decide) (by decide) (by decide)⟩

/-! C9: chunks with exactly equal bounds. -/

theorem mem_remove_inner_of_uncontained
    (C : List ValidChunk) (hvalid : ∀ c ∈ C, 0 < c.size)
    {a : ValidChunk} (ha : a ∈ C)
    (hnc : ∀ d ∈ C, d.contains a = false) :
    a ∈ remove_inner_chunks C := by
  rw [remove_inner_chunks_eq_filter C hvalid, List.mem_filter]
  have hperm := sortK_perm (fun c : ValidChunk => -c.size) C
  refine ⟨hperm.mem_iff.mpr ha, ?_⟩
  rw [isOuter_iff]
  intro d hd hcon
  have hfd := hnc d (hperm.mem_iff.mp hd)
  simp [hfd] at hcon

/-- C9 (amended): two chunks with exactly equal bounds never contain each
other, and remove_inner_chunks keeps both whenever the list is valid and no
chunk of the list contains them (the proviso the counterexample forces:
a third, strictly larger chunk containing them removes both). -/
theorem equal_bounds_chunks_kept
    (a b : ValidChunk) (C : List ValidChunk)
    (hvalid : ∀ c ∈ C, 0 ≤ c.start_offset ∧ c.start_offset < c.end_offset)
    (heqs : a.start_offset = b.start_offset) (heqe : a.end_offset = b.end_offset)
    (ha : a ∈ C) (hb : b ∈ C)
    (hnca : ∀ d ∈ C, d.contains a = false) :
    a.contains b = false ∧ b.contains a = false ∧
      a ∈ remove_inner_chunks C ∧ b ∈ remove_inner_chunks C := by
  have hvsz : ∀ c ∈ C, 0 < c.size := by
    intro c hc
    have := hvalid c hc
    unfold ValidChunk.size Chunk.size
    omega
  have hab : a.contains b = false := by
    have hns : ¬(a.start_offset < b.start_offset) := by omega
    simp [ValidChunk.contains, Chunk.contains, hns]
  have hba : b.contains a = false := by
    have hns : ¬(b.start_offset < a.start_offset) := by omega
    simp [ValidChunk.contains, Chunk.contains, hns]
  have hncb : ∀ d ∈ C, d.contains b = false := by
    intro d hd
    have hda := hnca d hd
    unfold ValidChunk.contains Chunk.contains at hda ⊢
    rw [← heqs, ← heqe]
    exact hda
  exact ⟨hab, hba,
    mem_remove_inner_of_uncontained C hvsz ha hnca,
    mem_remove_inner_of_uncontained C hvsz hb hncb⟩

/-- Counterexample for C9 as stated: in a list that also holds a strictly
larger chunk containing them, two equal-bounds chunks are both removed, so
remove_inner_chunks does not keep them for every list containing both. -/
theorem equal_bounds_chunks_counterexample :
    ((⟨⟨1, 3⟩, false⟩ : ValidChunk).contains ⟨⟨1, 3⟩, true⟩ = false) ∧
    ((⟨⟨1, 3⟩, true⟩ : ValidChunk).contains ⟨⟨1, 3⟩, false⟩ = false) ∧
    remove_inner_chunks
        [⟨⟨0, 10⟩, false⟩, ⟨⟨1, 3⟩, false⟩, ⟨⟨1, 3⟩, true⟩] = [⟨⟨0, 10⟩, false⟩] ∧
    (⟨⟨1, 3⟩, false⟩ : ValidChunk) ∉
      remove_inner_chunks [⟨⟨0, 10⟩, false⟩, ⟨⟨1, 3⟩, false⟩, ⟨⟨1, 3⟩, true⟩] ∧
    (⟨⟨1, 3⟩, true⟩ : ValidChunk) ∉
      remove_inner_chunks [⟨⟨0, 10⟩, false⟩, ⟨⟨1, 3⟩, false⟩, ⟨⟨1, 3⟩, true⟩] := by
  decide

/-- Witness for the amended C9 on the two-element list of the two
equal-bounds chunks. -/
theorem equal_bounds_chunks_kept_witness :
    ((⟨⟨1, 3⟩, false⟩ : ValidChunk).contains ⟨⟨1, 3⟩, true⟩ = false) ∧
    ((⟨⟨1, 3⟩, true⟩ : ValidChunk).contains ⟨⟨1, 3⟩, false⟩ = false) ∧
    (⟨⟨1, 3⟩, false⟩ : ValidChunk) ∈
      remove_inner_chunks [⟨⟨1, 3⟩, false⟩, ⟨⟨1, 3⟩, true⟩] ∧
    (⟨⟨1, 3⟩, true⟩ : ValidChunk) ∈
      remove_inner_chunks [⟨⟨1, 3⟩, false⟩, ⟨⟨1, 3⟩, true⟩] := by
  have h := equal_bounds_chunks_kept ⟨⟨1, 3⟩, false⟩ ⟨⟨1, 3⟩, true⟩
    [⟨⟨1, 3⟩, false⟩, ⟨⟨1, 3⟩, true⟩]
    (by decide) (by decide) (by decide) (by decide) (by decide) (by decide)
  exact ⟨h.1, h.2.1, h.2.2.1, h.2.2.2⟩

/-! Theorems about the processing model. -/

theorem foldl_add_new_task_task (root : String) (depth : Nat) :
    ∀ (children : List String) (acc : TaskResult),
      (children.foldl (fun acc p => acc.add_new_task ⟨root, p, depth⟩) acc).task
        = acc.task := by
  intro children
  induction children with
  | nil => intro acc; rfl
  | cons p ps ih =>
    intro acc
    simp only [List.foldl_cons]
    rw [ih]
    rfl

theorem processTaskInner_task (config : ExtractionConfig) (task : UTask) (vp : Bool)
    (stat : Except PyException StatResult)
    (fileStep : TaskResult → TaskResult × Option PyException)
    (hfs : ∀ r, ((fileStep r).1).task = r.task) (r : TaskResult) :
    ((processTaskInner config task vp stat fileStep r).1).task = r.task := by
  unfold processTaskInner
  split
  · rfl
  · split
    · rfl
    · cases stat with
      | error e => rfl
      | ok st =>
        obtain ⟨kind, size⟩ := st
        cases kind with
        | directory children => exact foldl_add_new_task_task task.root task.depth children r
        | symlink => rfl
        | file =>
          simp only
          split
          · rfl
          · exact hfs r

/-- C3: process_task returns a TaskResult for its task in every case; when
the inner processing body leaves an exception, the exception is caught at
the task boundary and converted to exactly one UnknownError report appended
to that result, with the collected new tasks untouched.  The hypothesis on
fileStep records that _FileTask.process mutates the result only through
add_report and add_new_task, which keep the task field. -/
theorem process_task_total (config : ExtractionConfig) (task : UTask) (vp : Bool)
    (stat : Except PyException StatResult)
    (fileStep : TaskResult → TaskResult × Option PyException)
    (hfs : ∀ r, ((fileStep r).1).task = r.task) :
    (process_task config task vp stat fileStep).task = task ∧
    (∀ r b, processTaskInner config task vp stat fileStep ⟨task, [], []⟩ = (r, none, b) →
      process_task config task vp stat fileStep = r) ∧
    (∀ r e b, processTaskInner config task vp stat fileStep ⟨task, [], []⟩ = (r, some e, b) →
      (process_task config task vp stat fileStep).reports
          = r.reports ++ [Report.unknownError e] ∧
        (process_task config task vp stat fileStep).new_tasks = r.new_tasks) := by
  refine ⟨?_, ?_, ?_⟩
  · have htask := processTaskInner_task config task vp stat fileStep hfs ⟨task, [], []⟩
    unfold process_task
    rcases hin : processTaskInner config task vp stat fileStep ⟨task, [], []⟩ with ⟨r, oe, b⟩
    rw [hin] at htask
    cases oe
    · exact htask
    · exact htask
  · intro r b hin
    unfold process_task
    rw [hin]
  · intro r e b hin
    unfold process_task
    rw [hin]
    exact ⟨rfl, rfl⟩

/-- Witness for C3: an lstat failure is converted into a single UnknownError
report on an otherwise empty result. -/
theorem process_task_total_witness :
    (∀ r : TaskResult,
      (((fun r : TaskResult => (r, (none : Option PyException))) r).1).task = r.task) ∧
    processTaskInner ⟨"r", 1, false, 10, 1, false⟩ ⟨"a", "b", 0⟩ true
        (.error ⟨"boom"⟩) (fun r => (r, none)) ⟨⟨"a", "b", 0⟩, [], []⟩
      = (⟨⟨"a", "b", 0⟩, [], []⟩, some ⟨"boom"⟩, false) ∧
    (process_task ⟨"r", 1, false, 10, 1, false⟩ ⟨"a", "b", 0⟩ true
        (.error ⟨"boom"⟩) (fun r => (r, none))).reports
      = [Report.unknownError ⟨"boom"⟩] := by
  refine ⟨fun r => rfl, by decide, ?_⟩
  have h := (process_task_total ⟨"r", 1, false, 10, 1, false⟩ ⟨"a", "b", 0⟩ true
      (.error ⟨"boom"⟩) (fun r => (r, none)) (fun r => rfl)).2.2
      ⟨⟨"a", "b", 0⟩, [], []⟩ ⟨"boom"⟩ false (by decide)
  exact h.1

/-- C7: when the task depth has reached max_depth, process_task returns the
empty result for the task, with no reports and no new tasks, and the
file-processing step (chunk search, carving, extraction) is never invoked,
whatever the path check, lstat outcome and file contents are. -/
theorem process_task_depth_cutoff (config : ExtractionConfig) (task : UTask) (vp : Bool)
    (stat : Except PyException StatResult)
    (fileStep : TaskResult → TaskResult × Option PyException)
    (hdepth : config.max_depth ≤ task.depth) :
    process_task config task vp stat fileStep = ⟨task, [], []⟩ ∧
    (processTaskInner config task vp stat fileStep ⟨task, [], []⟩).2.2 = false := by
  have hin : processTaskInner config task vp stat fileStep ⟨task, [], []⟩
      = (⟨task, [], []⟩, none, false) := by
    unfold processTaskInner
    rw [if_pos hdepth]
  constructor
  · unfold process_task
    rw [hin]
  · rw [hin]

/-- Witness for C7: a depth-3 task under max_depth 2 is dropped even though
the file step would have added a report. -/
theorem process_task_depth_cutoff_witness :
    ((⟨"r", 1, false, 2, 1, false⟩ : ExtractionConfig).max_depth
      ≤ (⟨"a", "b", 3⟩ : UTask).depth) ∧
    process_task ⟨"r", 1, false, 2, 1, false⟩ ⟨"a", "b", 3⟩ true (.ok ⟨.file, 5⟩)
        (fun r => (r.add_report (.report .ERROR), none))
      = ⟨⟨"a", "b", 3⟩, [], []⟩ :=
  ⟨by decide,
    (process_task_depth_cutoff ⟨"r", 1, false, 2, 1, false⟩ ⟨"a", "b", 3⟩ true
      (.ok ⟨.file, 5⟩) (fun r => (r.add_report (.report .ERROR), none)) (by decide)).1⟩

/-- C4 (amended): extracting an encrypted valid chunk only logs a warning:
no report at all is added to the task result, the extractor is never
invoked, no output directory is created, and no child task is enqueued. -/
theorem encrypted_chunk_skipped (config : ExtractionConfig) (task : UTask)
    (chunk : ValidChunk) (handler : HandlerModel) (outdirName : String)
    (fixReports : List Report) (result : TaskResult)
    (henc : chunk.is_encrypted = true) :
    extract_chunk config task chunk handler outdirName fixReports result
      = (result, false, false) := by
  unfold extract_chunk ValidChunk.extractModel
  rw [if_pos henc]
  simp

/-- Counterexample for C4 as stated: for an encrypted chunk whose handler
does have an extractor, the task result receives no report at all, in
particular no WARNING report (the warning goes to the log only). -/
theorem encrypted_chunk_counterexample :
    ((⟨⟨0, 4⟩, true⟩ : ValidChunk).is_encrypted = true) ∧
    (extract_chunk ⟨"r", 1, false, 10, 1, false⟩ ⟨"a", "b", 0⟩ ⟨⟨0, 4⟩, true⟩
        ⟨some .ok⟩ "out" [] ⟨⟨"a", "b", 0⟩, [], []⟩).1.reports = [] ∧
    ¬ ∃ rep ∈ (extract_chunk ⟨"r", 1, false, 10, 1, false⟩ ⟨"a", "b", 0⟩ ⟨⟨0, 4⟩, true⟩
        ⟨some .ok⟩ "out" [] ⟨⟨"a", "b", 0⟩, [], []⟩).1.reports,
      rep.severity = Severity.WARNING := by
  decide

/-- Witness for the amended C4: an encrypted chunk leaves the result
untouched even when repair reports would be available. -/
theorem encrypted_chunk_skipped_witness :
    ((⟨⟨0, 4⟩, true⟩ : ValidChunk).is_encrypted = true) ∧
    extract_chunk ⟨"r", 1, false, 10, 1, false⟩ ⟨"a", "b", 0⟩ ⟨⟨0, 4⟩, true⟩ ⟨some .ok⟩
        "out" [Report.report Severity.ERROR] ⟨⟨"a", "b", 0⟩, [], []⟩
      = (⟨⟨"a", "b", 0⟩, [], []⟩, false, false) :=
  ⟨rfl, encrypted_chunk_skipped _ _ _ _ _ _ _ rfl⟩

/-- C8: the exit code is 1 exactly when some report has severity ERROR and
0 otherwise; WARNING reports alone never raise it. -/
theorem get_exit_code_spec (reports : List Report) :
    ((∃ r ∈ reports, r.severity = Severity.ERROR) →
      get_exit_code_from_reports reports = 1) ∧
    ((¬∃ r ∈ reports, r.severity = Severity.ERROR) →
      get_exit_code_from_reports reports = 0) := by
  have hmem : Severity.ERROR ∈ (Reports.errors reports).map (fun r => r.severity)
      ↔ ∃ r ∈ reports, r.severity = Severity.ERROR := by
    rw [List.mem_map]
    constructor
    · rintro ⟨r, hr, hsev⟩
      rw [Reports.errors, List.mem_filter] at hr
      exact ⟨r, hr.1, hsev⟩
    · rintro ⟨r, hr, hsev⟩
      refine ⟨r, ?_, hsev⟩
      rw [Reports.errors, List.mem_filter]
      refine ⟨hr, ?_⟩
      rw [hsev]
      decide
  constructor
  · intro hex
    unfold get_exit_code_from_reports
    rw [if_pos (hmem.mpr hex)]
  · intro hnex
    unfold get_exit_code_from_reports
    rw [if_neg (fun hc => hnex (hmem.mp hc))]
    split <;> rfl

/-- Witness for C8: ERROR plus WARNING gives 1, WARNING alone gives 0. -/
theorem get_exit_code_spec_witness :
    (∃ r ∈ [Report.report Severity.ERROR, Report.report Severity.WARNING],
      r.severity = Severity.ERROR) ∧
    get_exit_code_from_reports
        [Report.report Severity.ERROR, Report.report Severity.WARNING] = 1 ∧
    (¬∃ r ∈ [Report.report Severity.WARNING], r.severity = Severity.ERROR) ∧
    get_exit_code_from_reports [Report.report Severity.WARNING] = 0 :=
  ⟨by decide, (get_exit_code_spec _).1 (by decide), by decide,
    (get_exit_code_spec _).2 (by decide)⟩

/-- C10: whenever the big-endian header parse succeeds (and the start
offset from the finder is non-negative), calculate_chunk never yields None:
for a non-zero header_len + kernel_len + rootfs_len sum it returns a
ValidChunk starting at the given offset whose size is exactly that sum,
and for a zero sum the ValidChunk constructor raises InvalidInputFormat. -/
theorem netgear_calculate_chunk_spec (bytes : List Nat) (start_offset : Int)
    (hlen : 40 ≤ bytes.length) (hstart : 0 ≤ start_offset) :
    ∃ header, parse_chk_header bytes = some header ∧
      ((header.header_len + header.kernel_len + header.rootfs_len = 0 →
        netgear_calculate_chunk bytes start_offset
          = .error (.invalid (.startNotBeforeEnd start_offset start_offset))) ∧
       (header.header_len + header.kernel_len + header.rootfs_len ≠ 0 →
        ∃ c, netgear_calculate_chunk bytes start_offset = .ok c ∧
          c.start_offset = start_offset ∧
          c.size = ((header.header_len + header.kernel_len + header.rootfs_len : Nat) : Int) ∧
          c.is_encrypted = false)) := by
  have hparse : parse_chk_header bytes = some
      { magic := be32 bytes 0
        header_len := be32 bytes 4
        kernel_chksum := be32 bytes 16
        rootfs_chksum := be32 bytes 20
        kernel_len := be32 bytes 24
        rootfs_len := be32 bytes 28
        image_chksum := be32 bytes 32
        header_chksum := be32 bytes 36 } := by
    unfold parse_chk_header
    rw [if_neg (by omega)]
  refine ⟨_, hparse, ?_, ?_⟩
  · intro hzero
    dsimp only at hzero
    unfold netgear_calculate_chunk
    rw [hparse]
    dsimp only
    unfold ValidChunk.make Chunk.validate
    rw [hzero]
    rw [if_neg (by omega), if_pos (by omega)]
    simp
  · intro hnz
    dsimp only at hnz
    unfold netgear_calculate_chunk
    rw [hparse]
    dsimp only
    unfold ValidChunk.make Chunk.validate
    rw [if_neg (by omega), if_neg (by omega)]
    refine ⟨_, rfl, rfl, ?_, rfl⟩
    unfold ValidChunk.size Chunk.size
    dsimp only
    omega

/-- Witness for C10 on a concrete 40-byte all-zero header (zero sum: the
constructor raises) at start offset 7. -/
theorem netgear_calculate_chunk_spec_witness :
    (40 ≤ (List.replicate 40 0).length) ∧ (0 : Int) ≤ 7 ∧
    ∃ header, parse_chk_header (List.replicate 40 0) = some header ∧
      ((header.header_len + header.kernel_len + header.rootfs_len = 0 →
        netgear_calculate_chunk (List.replicate 40 0) 7
          = .error (.invalid (.startNotBeforeEnd 7 7))) ∧
       (header.header_len + header.kernel_len + header.rootfs_len ≠ 0 →
        ∃ c, netgear_calculate_chunk (List.replicate 40 0) 7 = .ok c ∧
          c.start_offset = 7 ∧
          c.size = ((header.header_len + header.kernel_len + header.rootfs_len : Nat) : Int) ∧
          c.is_encrypted = false)) :=
  ⟨by decide, by decide,
    netgear_calculate_chunk_spec (List.replicate 40 0) 7 (by decide) (by decide)⟩
